import Mathlib

set_option maxRecDepth 8000

/- Shallow embedding of the lexical primitives of `include/peg.h`
   (UTF-8 codec, escape-sequence resolver, longest-match prefix trie)
   together with proofs of the specified properties.

   Modelling conventions:
   * a C buffer `(const char *s, size_t l)` becomes a `List Nat` of byte
     values (`0 ≤ b < 256` for real buffers); the available length `l` is
     the list length;
   * `char32_t` / `int` values become `Nat`; every statement below stays
     far under the 2^31 overflow boundary of the C types, and casts that
     only truncate already-small values are dropped;
   * the index-based loops of the source become recursion over the list
     suffix that starts at the current index. -/

namespace peg

/-! ## UTF-8 codec (peg.h, lines 86-225) -/

/-- Embeds `codepoint_length(const char *s8, size_t l)`: the byte length of
the leading UTF-8 codepoint of the buffer, or 0 on an empty buffer, an
invalid lead byte, or a truncated sequence. -/
def codepoint_length (s : List Nat) : Nat :=
  match s with
  | [] => 0
  | b :: _ =>
    if b &&& 0x80 = 0 then 1
    else if b &&& 0xE0 = 0xC0 ∧ 2 ≤ s.length then 2
    else if b &&& 0xF0 = 0xE0 ∧ 3 ≤ s.length then 3
    else if b &&& 0xF8 = 0xF0 ∧ 4 ≤ s.length then 4
    else 0

/-- Embeds the loop of `codepoint_count(const char *s8, size_t l)`:
`for (size_t i = 0; i < l; i += codepoint_length(s8 + i, l - i)) count++;`.
The C loop has no termination guarantee of its own, so the embedding takes
an explicit `fuel` bound on the number of iterations; `none` means the
loop is still running when the fuel is exhausted. -/
def codepoint_countAux (s : List Nat) : Nat → Nat → Nat → Option Nat
  | 0, _, _ => none
  | fuel + 1, i, count =>
    if i < s.length then
      codepoint_countAux s fuel (i + codepoint_length (s.drop i)) (count + 1)
    else
      some count

/-- Embeds `codepoint_count(const char *s8, size_t l)` with an iteration
budget `fuel` (see `codepoint_countAux`). -/
def codepoint_count (s : List Nat) (fuel : Nat) : Option Nat :=
  codepoint_countAux s fuel 0 0

/-- Embeds `encode_codepoint(char32_t cp, char *buff)` together with its
`std::string` overload: the produced byte string (empty on the invalid
ranges, where the C function returns length 0). -/
def encode_codepoint (cp : Nat) : List Nat :=
  if cp < 0x0080 then
    [cp &&& 0x7F]
  else if cp < 0x0800 then
    [0xC0 ||| ((cp >>> 6) &&& 0x1F),
     0x80 ||| (cp &&& 0x3F)]
  else if cp < 0xD800 then
    [0xE0 ||| ((cp >>> 12) &&& 0xF),
     0x80 ||| ((cp >>> 6) &&& 0x3F),
     0x80 ||| (cp &&& 0x3F)]
  else if cp < 0xE000 then
    []  -- D800 - DFFF is invalid
  else if cp < 0x10000 then
    [0xE0 ||| ((cp >>> 12) &&& 0xF),
     0x80 ||| ((cp >>> 6) &&& 0x3F),
     0x80 ||| (cp &&& 0x3F)]
  else if cp < 0x110000 then
    [0xF0 ||| ((cp >>> 18) &&& 0x7),
     0x80 ||| ((cp >>> 12) &&& 0x3F),
     0x80 ||| ((cp >>> 6) &&& 0x3F),
     0x80 ||| (cp &&& 0x3F)]
  else []

/-- Embeds `decode_codepoint(const char *s8, size_t l, size_t &bytes,
char32_t &cp)`: `some (cp, bytes)` on success, `none` on failure. -/
def decode_codepoint (s : List Nat) : Option (Nat × Nat) :=
  match s with
  | [] => none
  | b0 :: rest =>
    if b0 &&& 0x80 = 0 then
      some (b0, 1)
    else if b0 &&& 0xE0 = 0xC0 then
      match rest with
      | b1 :: _ => some (((b0 &&& 0x1F) <<< 6) ||| (b1 &&& 0x3F), 2)
      | [] => none
    else if b0 &&& 0xF0 = 0xE0 then
      match rest with
      | b1 :: b2 :: _ =>
        some (((b0 &&& 0x0F) <<< 12) ||| ((b1 &&& 0x3F) <<< 6) ||| (b2 &&& 0x3F), 3)
      | _ => none
    else if b0 &&& 0xF8 = 0xF0 then
      match rest with
      | b1 :: b2 :: b3 :: _ =>
        some (((b0 &&& 0x07) <<< 18) ||| ((b1 &&& 0x3F) <<< 12) |||
              ((b2 &&& 0x3F) <<< 6) ||| (b3 &&& 0x3F), 4)
      | _ => none
    else none

/-- Byte count predicted by the spec's boundary table for a scalar value in
the valid domain. -/
def utf8_len (v : Nat) : Nat :=
  if v < 0x80 then 1
  else if v < 0x800 then 2
  else if v < 0x10000 then 3
  else 4

/-! ## Bit-twiddling bridge lemmas -/

/-- Reading a bitwise or of disjoint parts as addition. -/
theorem lor_eq_add {x b k : Nat} (hb : b < 2 ^ k) (hx : x % 2 ^ k = 0) :
    x ||| b = x + b := by
  obtain ⟨a, rfl⟩ := Nat.dvd_of_mod_eq_zero hx
  exact (Nat.mul_add_lt_is_or hb a).symm

theorem and_0x7F (x : Nat) : x &&& 0x7F = x % 0x80 := by
  have h := Nat.and_pow_two_sub_one_eq_mod x 7
  norm_num at h
  exact h

theorem and_0x3F (x : Nat) : x &&& 0x3F = x % 0x40 := by
  have h := Nat.and_pow_two_sub_one_eq_mod x 6
  norm_num at h
  exact h

theorem and_0x1F (x : Nat) : x &&& 0x1F = x % 0x20 := by
  have h := Nat.and_pow_two_sub_one_eq_mod x 5
  norm_num at h
  exact h

theorem and_0xF (x : Nat) : x &&& 0xF = x % 0x10 := by
  have h := Nat.and_pow_two_sub_one_eq_mod x 4
  norm_num at h
  exact h

theorem and_0x7 (x : Nat) : x &&& 0x7 = x % 0x8 := by
  have h := Nat.and_pow_two_sub_one_eq_mod x 3
  norm_num at h
  exact h

theorem shiftRight_6 (x : Nat) : x >>> 6 = x / 64 := Nat.shiftRight_eq_div_pow x 6

theorem shiftRight_12 (x : Nat) : x >>> 12 = x / 4096 := Nat.shiftRight_eq_div_pow x 12

theorem shiftRight_18 (x : Nat) : x >>> 18 = x / 262144 := Nat.shiftRight_eq_div_pow x 18

/-! ## Shape of `encode_codepoint`'s output on each range, in plain
arithmetic form -/

theorem encode_eq_one (cp : Nat) (h : cp < 0x80) :
    encode_codepoint cp = [cp] := by
  simp only [encode_codepoint, if_pos h, and_0x7F]
  rw [Nat.mod_eq_of_lt h]

theorem encode_eq_two (cp : Nat) (h1 : 0x80 ≤ cp) (h2 : cp < 0x800) :
    encode_codepoint cp = [0xC0 + cp / 64, 0x80 + cp % 64] := by
  have hd : (cp >>> 6) &&& 0x1F = cp / 64 := by
    rw [shiftRight_6, and_0x1F]; omega
  have hm : cp &&& 0x3F = cp % 64 := by rw [and_0x3F]
  simp only [encode_codepoint, if_neg (by omega : ¬cp < 0x80), if_pos h2, hd, hm]
  rw [lor_eq_add (k := 6) (by omega) (by norm_num),
      lor_eq_add (k := 6) (by omega) (by norm_num)]

theorem encode_eq_three (cp : Nat) (h1 : 0x800 ≤ cp)
    (h2 : cp < 0xD800 ∨ (0xE000 ≤ cp ∧ cp < 0x10000)) :
    encode_codepoint cp =
      [0xE0 + cp / 4096, 0x80 + cp / 64 % 64, 0x80 + cp % 64] := by
  have hd : (cp >>> 12) &&& 0xF = cp / 4096 := by
    rw [shiftRight_12, and_0xF]; omega
  have hm : (cp >>> 6) &&& 0x3F = cp / 64 % 64 := by
    rw [shiftRight_6, and_0x3F]
  have hl : cp &&& 0x3F = cp % 64 := by rw [and_0x3F]
  have hcp : cp / 4096 < 16 := by omega
  rcases h2 with h2 | h2
  · simp only [encode_codepoint, if_neg (by omega : ¬cp < 0x80),
      if_neg (by omega : ¬cp < 0x800), if_pos h2, hd, hm, hl]
    rw [lor_eq_add (k := 4) (by omega) (by norm_num),
        lor_eq_add (k := 6) (by omega) (by norm_num),
        lor_eq_add (k := 6) (by omega) (by norm_num)]
  · simp only [encode_codepoint, if_neg (by omega : ¬cp < 0x80),
      if_neg (by omega : ¬cp < 0x800), if_neg (by omega : ¬cp < 0xD800),
      if_neg (by omega : ¬cp < 0xE000), if_pos h2.2, hd, hm, hl]
    rw [lor_eq_add (k := 4) (by omega) (by norm_num),
        lor_eq_add (k := 6) (by omega) (by norm_num),
        lor_eq_add (k := 6) (by omega) (by norm_num)]

theorem encode_eq_four (cp : Nat) (h1 : 0x10000 ≤ cp) (h2 : cp < 0x110000) :
    encode_codepoint cp =
      [0xF0 + cp / 262144, 0x80 + cp / 4096 % 64,
       0x80 + cp / 64 % 64, 0x80 + cp % 64] := by
  have hd : (cp >>> 18) &&& 0x7 = cp / 262144 := by
    rw [shiftRight_18, and_0x7]; omega
  have hm1 : (cp >>> 12) &&& 0x3F = cp / 4096 % 64 := by
    rw [shiftRight_12, and_0x3F]
  have hm2 : (cp >>> 6) &&& 0x3F = cp / 64 % 64 := by
    rw [shiftRight_6, and_0x3F]
  have hl : cp &&& 0x3F = cp % 64 := by rw [and_0x3F]
  simp only [encode_codepoint, if_neg (by omega : ¬cp < 0x80),
    if_neg (by omega : ¬cp < 0x800), if_neg (by omega : ¬cp < 0xD800),
    if_neg (by omega : ¬cp < 0xE000), if_neg (by omega : ¬cp < 0x10000),
    if_pos h2, hd, hm1, hm2, hl]
  rw [lor_eq_add (k := 3) (by omega) (by norm_num),
      lor_eq_add (k := 6) (by omega) (by norm_num),
      lor_eq_add (k := 6) (by omega) (by norm_num),
      lor_eq_add (k := 6) (by omega) (by norm_num)]

theorem encode_eq_nil_surrogate (cp : Nat) (h1 : 0xD800 ≤ cp) (h2 : cp < 0xE000) :
    encode_codepoint cp = [] := by
  simp only [encode_codepoint]
  rw [if_neg (by omega), if_neg (by omega), if_neg (by omega), if_pos h2]

theorem encode_eq_nil_overflow (cp : Nat) (h : 0x110000 ≤ cp) :
    encode_codepoint cp = [] := by
  simp only [encode_codepoint]
  rw [if_neg (by omega), if_neg (by omega), if_neg (by omega),
      if_neg (by omega), if_neg (by omega), if_neg (by omega)]

/-! ## Mask facts about the bytes produced by the encoder -/

theorem shiftLeft_6 (x : Nat) : x <<< 6 = x * 64 := by
  rw [Nat.shiftLeft_eq]

theorem shiftLeft_12 (x : Nat) : x <<< 12 = x * 4096 := by
  rw [Nat.shiftLeft_eq]

theorem shiftLeft_18 (x : Nat) : x <<< 18 = x * 262144 := by
  rw [Nat.shiftLeft_eq]

theorem ascii_and_80 (b : Nat) (h : b < 0x80) : b &&& 0x80 = 0 := by
  have l : ∀ x : Fin 0x80, x.val &&& 0x80 = 0 := by decide
  exact l ⟨b, h⟩

theorem lead2_and_80 (h : Nat) (hh : h < 32) : (0xC0 + h) &&& 0x80 = 0x80 := by
  have l : ∀ x : Fin 32, (0xC0 + x.val) &&& 0x80 = 0x80 := by decide
  exact l ⟨h, hh⟩

theorem lead2_and_E0 (h : Nat) (hh : h < 32) : (0xC0 + h) &&& 0xE0 = 0xC0 := by
  have l : ∀ x : Fin 32, (0xC0 + x.val) &&& 0xE0 = 0xC0 := by decide
  exact l ⟨h, hh⟩

theorem lead2_and_1F (h : Nat) (hh : h < 32) : (0xC0 + h) &&& 0x1F = h := by
  have l : ∀ x : Fin 32, (0xC0 + x.val) &&& 0x1F = x.val := by decide
  exact l ⟨h, hh⟩

theorem cont_and_3F (m : Nat) (hm : m < 64) : (0x80 + m) &&& 0x3F = m := by
  have l : ∀ x : Fin 64, (0x80 + x.val) &&& 0x3F = x.val := by decide
  exact l ⟨m, hm⟩

theorem cont_and_C0 (m : Nat) (hm : m < 64) : (0x80 + m) &&& 0xC0 = 0x80 := by
  have l : ∀ x : Fin 64, (0x80 + x.val) &&& 0xC0 = 0x80 := by decide
  exact l ⟨m, hm⟩

theorem lead3_and_80 (h : Nat) (hh : h < 16) : (0xE0 + h) &&& 0x80 = 0x80 := by
  have l : ∀ x : Fin 16, (0xE0 + x.val) &&& 0x80 = 0x80 := by decide
  exact l ⟨h, hh⟩

theorem lead3_and_E0 (h : Nat) (hh : h < 16) : (0xE0 + h) &&& 0xE0 = 0xE0 := by
  have l : ∀ x : Fin 16, (0xE0 + x.val) &&& 0xE0 = 0xE0 := by decide
  exact l ⟨h, hh⟩

theorem lead3_and_F0 (h : Nat) (hh : h < 16) : (0xE0 + h) &&& 0xF0 = 0xE0 := by
  have l : ∀ x : Fin 16, (0xE0 + x.val) &&& 0xF0 = 0xE0 := by decide
  exact l ⟨h, hh⟩

theorem lead3_and_0F (h : Nat) (hh : h < 16) : (0xE0 + h) &&& 0x0F = h := by
  have l : ∀ x : Fin 16, (0xE0 + x.val) &&& 0x0F = x.val := by decide
  exact l ⟨h, hh⟩

theorem lead4_and_80 (h : Nat) (hh : h < 8) : (0xF0 + h) &&& 0x80 = 0x80 := by
  have l : ∀ x : Fin 8, (0xF0 + x.val) &&& 0x80 = 0x80 := by decide
  exact l ⟨h, hh⟩

theorem lead4_and_E0 (h : Nat) (hh : h < 8) : (0xF0 + h) &&& 0xE0 = 0xE0 := by
  have l : ∀ x : Fin 8, (0xF0 + x.val) &&& 0xE0 = 0xE0 := by decide
  exact l ⟨h, hh⟩

theorem lead4_and_F0 (h : Nat) (hh : h < 8) : (0xF0 + h) &&& 0xF0 = 0xF0 := by
  have l : ∀ x : Fin 8, (0xF0 + x.val) &&& 0xF0 = 0xF0 := by decide
  exact l ⟨h, hh⟩

theorem lead4_and_F8 (h : Nat) (hh : h < 8) : (0xF0 + h) &&& 0xF8 = 0xF0 := by
  have l : ∀ x : Fin 8, (0xF0 + x.val) &&& 0xF8 = 0xF0 := by decide
  exact l ⟨h, hh⟩

theorem lead4_and_07 (h : Nat) (hh : h < 8) : (0xF0 + h) &&& 0x07 = h := by
  have l : ∀ x : Fin 8, (0xF0 + x.val) &&& 0x07 = x.val := by decide
  exact l ⟨h, hh⟩

/-! ## Round trip: decode after encode -/

/-- Decoding the encoder's output recovers the scalar value and consumes
exactly the number of bytes the boundary table predicts. -/
theorem decode_encode (v : Nat) (h1 : v < 0x110000) (h2 : v < 0xD800 ∨ 0xE000 ≤ v) :
    decode_codepoint (encode_codepoint v) = some (v, utf8_len v) := by
  rcases Nat.lt_or_ge v 0x80 with hr | hr
  · have hu : utf8_len v = 1 := by unfold utf8_len; split_ifs <;> omega
    rw [encode_eq_one v hr, hu]
    simp only [decode_codepoint, ascii_and_80 v hr, if_pos rfl]
    rw [if_pos trivial]
  rcases Nat.lt_or_ge v 0x800 with hr2 | hr2
  · have hu : utf8_len v = 2 := by unfold utf8_len; split_ifs <;> omega
    rw [encode_eq_two v hr hr2, hu]
    have hd : v / 64 < 32 := by omega
    simp only [decode_codepoint,
      lead2_and_80 _ hd, lead2_and_E0 _ hd, lead2_and_1F _ hd,
      cont_and_3F _ (by omega : v % 64 < 64)]
    rw [if_neg (by norm_num : (128 : Nat) ≠ 0), if_pos trivial, shiftLeft_6]
    have e1 : v / 64 * 64 ||| v % 64 = v / 64 * 64 + v % 64 :=
      lor_eq_add (k := 6) (by omega) (by omega)
    rw [e1]
    have hv : v / 64 * 64 + v % 64 = v := by omega
    rw [hv]
  rcases Nat.lt_or_ge v 0x10000 with hr3 | hr3
  · have hu : utf8_len v = 3 := by unfold utf8_len; split_ifs <;> omega
    have h3 : v < 0xD800 ∨ (0xE000 ≤ v ∧ v < 0x10000) := by omega
    rw [encode_eq_three v hr2 h3, hu]
    have hd : v / 4096 < 16 := by omega
    simp only [decode_codepoint,
      lead3_and_80 _ hd, lead3_and_E0 _ hd, lead3_and_F0 _ hd, lead3_and_0F _ hd,
      cont_and_3F _ (by omega : v / 64 % 64 < 64),
      cont_and_3F _ (by omega : v % 64 < 64)]
    rw [if_neg (by norm_num : (128 : Nat) ≠ 0),
      if_neg (by norm_num : (224 : Nat) ≠ 192), shiftLeft_12, shiftLeft_6]
    have e1 : v / 4096 * 4096 ||| v / 64 % 64 * 64 = v / 4096 * 4096 + v / 64 % 64 * 64 :=
      lor_eq_add (k := 12) (by omega) (by omega)
    rw [e1]
    have e2 : v / 4096 * 4096 + v / 64 % 64 * 64 ||| v % 64 =
        v / 4096 * 4096 + v / 64 % 64 * 64 + v % 64 :=
      lor_eq_add (k := 6) (by omega) (by omega)
    rw [e2]
    have hv : v / 4096 * 4096 + v / 64 % 64 * 64 + v % 64 = v := by omega
    rw [hv, if_pos trivial]
  · have hu : utf8_len v = 4 := by unfold utf8_len; split_ifs <;> omega
    rw [encode_eq_four v hr3 h1, hu]
    have hd : v / 262144 < 8 := by omega
    simp only [decode_codepoint,
      lead4_and_80 _ hd, lead4_and_E0 _ hd, lead4_and_F0 _ hd,
      lead4_and_F8 _ hd, lead4_and_07 _ hd,
      cont_and_3F _ (by omega : v / 4096 % 64 < 64),
      cont_and_3F _ (by omega : v / 64 % 64 < 64),
      cont_and_3F _ (by omega : v % 64 < 64)]
    rw [if_neg (by norm_num : (128 : Nat) ≠ 0),
      if_neg (by norm_num : (224 : Nat) ≠ 192),
      if_neg (by norm_num : (240 : Nat) ≠ 224), shiftLeft_18, shiftLeft_12, shiftLeft_6]
    have e1 : v / 262144 * 262144 ||| v / 4096 % 64 * 4096 =
        v / 262144 * 262144 + v / 4096 % 64 * 4096 :=
      lor_eq_add (k := 18) (by omega) (by omega)
    rw [e1]
    have e2 : v / 262144 * 262144 + v / 4096 % 64 * 4096 ||| v / 64 % 64 * 64 =
        v / 262144 * 262144 + v / 4096 % 64 * 4096 + v / 64 % 64 * 64 :=
      lor_eq_add (k := 12) (by omega) (by omega)
    rw [e2]
    have e3 : v / 262144 * 262144 + v / 4096 % 64 * 4096 + v / 64 % 64 * 64 ||| v % 64 =
        v / 262144 * 262144 + v / 4096 % 64 * 4096 + v / 64 % 64 * 64 + v % 64 :=
      lor_eq_add (k := 6) (by omega) (by omega)
    rw [e3]
    have hv : v / 262144 * 262144 + v / 4096 % 64 * 4096 + v / 64 % 64 * 64 + v % 64 = v := by
      omega
    rw [hv, if_pos trivial]

/-! ## Escape-sequence resolver (peg.h, lines 261-377) -/

/-- Embeds `is_hex(char c, int &v)`: `some v` exactly when the C function
returns true with output value `v`. -/
def is_hex (c : Nat) : Option Nat :=
  if 48 ≤ c ∧ c ≤ 57 then some (c - 48)             -- '0' <= c && c <= '9'
  else if 97 ≤ c ∧ c ≤ 102 then some (c - 97 + 10)  -- 'a' <= c && c <= 'f'
  else if 65 ≤ c ∧ c ≤ 70 then some (c - 65 + 10)   -- 'A' <= c && c <= 'F'
  else none

/-- Embeds `is_digit(char c, int &v)`: `some v` exactly when the C function
returns true with output value `v`. -/
def is_digit (c : Nat) : Option Nat :=
  if 48 ≤ c ∧ c ≤ 57 then some (c - 48) else none

/-- Embeds `parse_hex_number(const char *s, size_t n, size_t i)`.  The C
index pair `(i, n)` is replaced by the suffix of the input that starts at
`i`; the returned index becomes the unconsumed suffix. -/
def parse_hex_number (ret : Nat) : List Nat → Nat × List Nat
  | [] => (ret, [])
  | c :: rest =>
    match is_hex c with
    | some v => parse_hex_number (ret * 16 + v) rest
    | none => (ret, c :: rest)

/-- Embeds `parse_octal_number(const char *s, size_t n, size_t i)`: radix-8
accumulation driven by the full decimal digit test `is_digit`. -/
def parse_octal_number (ret : Nat) : List Nat → Nat × List Nat
  | [] => (ret, [])
  | c :: rest =>
    match is_digit c with
    | some v => parse_octal_number (ret * 8 + v) rest
    | none => (ret, c :: rest)

theorem parse_hex_number_sfx (ret : Nat) (s : List Nat) :
    (parse_hex_number ret s).2 <:+ s := by
  induction s generalizing ret with
  | nil => simp [parse_hex_number]
  | cons c rest ih =>
    simp only [parse_hex_number]
    cases h : is_hex c with
    | some v => exact ((ih _).trans (List.suffix_cons c rest))
    | none => exact List.suffix_refl _

theorem parse_octal_number_sfx (ret : Nat) (s : List Nat) :
    (parse_octal_number ret s).2 <:+ s := by
  induction s generalizing ret with
  | nil => simp [parse_octal_number]
  | cons c rest ih =>
    simp only [parse_octal_number]
    cases h : is_digit c with
    | some v => exact ((ih _).trans (List.suffix_cons c rest))
    | none => exact List.suffix_refl _

/-- Error raised by `resolve_escape_sequence`; the source throws
`std::runtime_error("Invalid escape sequence...")`, called `MalformedEscape`
in the spec. -/
inductive EscapeError where
  | malformedEscape
deriving DecidableEq

/-- Embeds `resolve_escape_sequence(const char *s, size_t n)` on byte
strings.  Bytes named in the switch: `\` 92, `f` 102, `n` 110, `r` 114,
`t` 116, `v` 118, `'` 39, `"` 34, `[` 91, `]` 93, `x` 120, `u` 117.  The
output accumulated in the C string `r` becomes the value of the `ok`
result; the thrown exception becomes the `error` result. -/
def resolve_escape_sequence : List Nat → Except EscapeError (List Nat)
  | [] => Except.ok []
  | c :: rest =>
    if c = 92 then
      match rest with
      | [] => Except.error EscapeError.malformedEscape
      | e :: rest2 =>
        if e = 102 then Except.map (fun t => 12 :: t) (resolve_escape_sequence rest2)
        else if e = 110 then Except.map (fun t => 10 :: t) (resolve_escape_sequence rest2)
        else if e = 114 then Except.map (fun t => 13 :: t) (resolve_escape_sequence rest2)
        else if e = 116 then Except.map (fun t => 9 :: t) (resolve_escape_sequence rest2)
        else if e = 118 then Except.map (fun t => 11 :: t) (resolve_escape_sequence rest2)
        else if e = 39 then Except.map (fun t => 39 :: t) (resolve_escape_sequence rest2)
        else if e = 34 then Except.map (fun t => 34 :: t) (resolve_escape_sequence rest2)
        else if e = 91 then Except.map (fun t => 91 :: t) (resolve_escape_sequence rest2)
        else if e = 93 then Except.map (fun t => 93 :: t) (resolve_escape_sequence rest2)
        else if e = 92 then Except.map (fun t => 92 :: t) (resolve_escape_sequence rest2)
        else if e = 120 ∨ e = 117 then
          Except.map (fun t => encode_codepoint (parse_hex_number 0 rest2).1 ++ t)
            (resolve_escape_sequence (parse_hex_number 0 rest2).2)
        else
          Except.map (fun t => encode_codepoint (parse_octal_number 0 (e :: rest2)).1 ++ t)
            (resolve_escape_sequence (parse_octal_number 0 (e :: rest2)).2)
    else
      Except.map (fun t => c :: t) (resolve_escape_sequence rest)
termination_by s => s.length
decreasing_by
  all_goals simp only [List.length_cons]
  all_goals try omega
  all_goals first
  | exact Nat.lt_of_le_of_lt (List.IsSuffix.length_le (parse_hex_number_sfx _ _))
      (by omega)
  | exact Nat.lt_of_le_of_lt (List.IsSuffix.length_le (parse_octal_number_sfx _ _))
      (by simp only [List.length_cons]; omega)

/-! ## Prefix trie (peg.h, lines 404-453)

The `std::map<std::string, Info, std::less<>>` dictionary is modelled
extensionally as a function from keys to `Option Info`; patterns and query
text are `List Char` (`std::string` values). -/

/-- Embeds `struct Info { bool done; bool match; }`.  The second field is
called `match` in the source; `match` is a Lean keyword, hence `mtch`. -/
structure Info where
  done : Bool
  mtch : Bool
deriving DecidableEq

/-- One iteration of the constructor's inner loop body: look up `key`;
insert `Info{last, last}` if absent, otherwise set `match` when `last` and
clear `done` when not. -/
def trie_insert (dic : List Char → Option Info) (key : List Char) (last : Bool) :
    List Char → Option Info :=
  fun q =>
    if q = key then
      match dic key with
      | none => some ⟨last, last⟩
      | some info => if last then some ⟨info.done, true⟩ else some ⟨false, info.mtch⟩
    else dic q

/-- The constructor's inner loop `for (size_t len = 1; len <= item.size();
len++)` after the first `k` iterations (lengths `1 .. k`). -/
def trie_addLens (dic : List Char → Option Info) (item : List Char) :
    Nat → (List Char → Option Info)
  | 0 => dic
  | k + 1 =>
    trie_insert (trie_addLens dic item k) (item.take (k + 1))
      (decide (k + 1 = item.length))

/-- The constructor's inner loop, run to completion for one `item`. -/
def trie_addItem (dic : List Char → Option Info) (item : List Char) :
    List Char → Option Info :=
  trie_addLens dic item item.length

/-- Embeds `Trie::Trie(const std::vector<std::string> &items)`: the
dictionary built from the pattern vector. -/
def Trie_build (items : List (List Char)) : List Char → Option Info :=
  items.foldl trie_addItem (fun _ => none)

/-- Embeds the loop of `Trie::match(const char *text, size_t text_len)`;
`text` is the query of length `text_len`, `len` the current probe length
and `match_len` the best match recorded so far. -/
def Trie_matchAux (dic : List Char → Option Info) (text : List Char)
    (len match_len : Nat) : Nat :=
  if len ≤ text.length then
    match dic (text.take len) with
    | none => match_len
    | some info =>
      if info.done then (if info.mtch then len else match_len)
      else Trie_matchAux dic text (len + 1) (if info.mtch then len else match_len)
  else match_len
termination_by text.length + 1 - len
decreasing_by omega

/-- Embeds `Trie::match(const char *text, size_t text_len)`. -/
def Trie_match (dic : List Char → Option Info) (text : List Char) : Nat :=
  Trie_matchAux dic text 1 0

/-! ### Specification-side views of the trie dictionary -/

/-- Whether `q` is a nonempty prefix of some pattern of `P` (the key set of
the built dictionary). -/
def inDom (P : List (List Char)) (q : List Char) : Bool :=
  decide (q ≠ []) && P.any (fun p => decide (q <+: p))

/-- Whether some pattern of `P` strictly extends `q` (the negation of the
final `done` flag). -/
def strictExt (P : List (List Char)) (q : List Char) : Bool :=
  P.any (fun p => decide (q <+: p ∧ q ≠ p))

/-- Whether `q` is itself a pattern of `P` (the final `match` flag). -/
def memberOf (P : List (List Char)) (q : List Char) : Bool :=
  decide (q ∈ P)

/-- The value the built dictionary is proved to take at every key. -/
def trieSpec (P : List (List Char)) (q : List Char) : Option Info :=
  if inDom P q then some ⟨!strictExt P q, memberOf P q⟩ else none

/-- Length of the longest pattern of `P` of length at least `len` that is a
prefix of `s` (0 when there is none). -/
def bestFrom (P : List (List Char)) (s : List Char) (len : Nat) : Nat :=
  P.foldr (fun p m => if p <+: s ∧ len ≤ p.length then max p.length m else m) 0

/-! ### The dictionary invariant of the constructor -/

theorem bool_eq_of_iff {a b : Bool} (h : a = true ↔ b = true) : a = b := by
  cases a <;> cases b <;> simp_all

theorem memberOf_inDom {P : List (List Char)} {q : List Char}
    (h : memberOf P q = true) (hq : q ≠ []) : inDom P q = true := by
  simp only [memberOf, decide_eq_true_eq] at h
  simp only [inDom, Bool.and_eq_true, decide_eq_true_eq, List.any_eq_true]
  exact ⟨by simpa using hq, q, h, List.prefix_refl q⟩

/-- State of a dictionary key while an item is being inserted: the inner
loop has completed iterations `len = 1 .. k`. -/
def inDomP (seen : List (List Char)) (item : List Char) (k : Nat) (q : List Char) : Bool :=
  inDom seen q || (decide (q ≠ []) && decide (q <+: item) && decide (q.length ≤ k))

/-- Partial value of the `match` flag (see `inDomP`). -/
def mtchP (seen : List (List Char)) (item : List Char) (k : Nat) (q : List Char) : Bool :=
  memberOf seen q || (decide (q = item) && decide (q.length ≤ k))

/-- Partial value of the `done` flag (see `inDomP`). -/
def doneP (seen : List (List Char)) (item : List Char) (k : Nat) (q : List Char) : Bool :=
  (if inDom seen q then !strictExt seen q else decide (q = item)) &&
    !(decide (q <+: item) && decide (q ≠ item) && decide (q.length ≤ k))

theorem trie_insert_eq_of_ne (dic : List Char → Option Info) (key : List Char)
    (last : Bool) (q : List Char) (h : q ≠ key) :
    trie_insert dic key last q = dic q := by
  unfold trie_insert
  rw [if_neg h]

theorem trie_insert_self_of_none (dic : List Char → Option Info) (key : List Char)
    (last : Bool) (h : dic key = none) :
    trie_insert dic key last key = some ⟨last, last⟩ := by
  unfold trie_insert
  rw [if_pos rfl, h]

theorem trie_insert_self_of_some_true (dic : List Char → Option Info) (key : List Char)
    (d m : Bool) (h : dic key = some ⟨d, m⟩) :
    trie_insert dic key true key = some ⟨d, true⟩ := by
  unfold trie_insert
  rw [if_pos rfl, h]
  rfl

theorem trie_insert_self_of_some_false (dic : List Char → Option Info) (key : List Char)
    (d m : Bool) (h : dic key = some ⟨d, m⟩) :
    trie_insert dic key false key = some ⟨false, m⟩ := by
  unfold trie_insert
  rw [if_pos rfl, h]
  rfl

theorem trie_addLens_spec (seen : List (List Char)) (item : List Char)
    (dic : List Char → Option Info) (hdic : ∀ q, dic q = trieSpec seen q) :
    ∀ k, k ≤ item.length → ∀ q,
      trie_addLens dic item k q =
        (if inDomP seen item k q
         then some ⟨doneP seen item k q, mtchP seen item k q⟩ else none) := by
  intro k
  induction k with
  | zero =>
    intro _ q
    show dic q = _
    rw [hdic q]
    unfold trieSpec
    by_cases hq : q = []
    · subst hq
      have h1 : inDom seen ([] : List Char) = false := by simp [inDom]
      have hne : decide (([] : List Char) ≠ []) = false := by simp
      have h2 : inDomP seen item 0 [] = false := by
        simp only [inDomP, h1, hne, Bool.false_and, Bool.false_or]
      rw [h1, h2]
      simp
    · have hlq : 0 < q.length := List.length_pos.mpr hq
      have hd0 : decide (q.length ≤ 0) = false := decide_eq_false (by omega)
      have h2 : inDomP seen item 0 q = inDom seen q := by
        simp only [inDomP, hd0, Bool.and_false, Bool.or_false]
      rw [h2]
      by_cases hdom : inDom seen q = true
      · rw [if_pos hdom, if_pos hdom]
        have hdq : doneP seen item 0 q = !strictExt seen q := by
          simp only [doneP, hd0, Bool.and_false, Bool.not_false, Bool.and_true]
          rw [if_pos hdom]
        have hmq : mtchP seen item 0 q = memberOf seen q := by
          simp only [mtchP, hd0, Bool.and_false, Bool.or_false]
        rw [hdq, hmq]
      · rw [if_neg hdom, if_neg hdom]
  | succ k ih =>
    intro hk1 q
    have hk : k ≤ item.length := by omega
    have hkeylen : (item.take (k + 1)).length = k + 1 := by
      rw [List.length_take]; omega
    have hkeypre : item.take (k + 1) <+: item := List.take_prefix (k + 1) item
    have hkeyne : item.take (k + 1) ≠ [] := by
      intro h
      rw [h] at hkeylen
      simp at hkeylen
    have hkeyitem : item.take (k + 1) = item ↔ k + 1 = item.length := by
      constructor
      · intro h
        rw [← h, hkeylen]
      · intro h
        rw [h]
        exact List.take_length item
    have hdpre : decide (item.take (k + 1) <+: item) = true := decide_eq_true hkeypre
    have hdne : decide (item.take (k + 1) ≠ []) = true := decide_eq_true hkeyne
    have hdlek1 : decide ((item.take (k + 1)).length ≤ k + 1) = true := by
      rw [hkeylen]; exact decide_eq_true (le_refl _)
    have hdlek : decide ((item.take (k + 1)).length ≤ k) = false := by
      rw [hkeylen]; exact decide_eq_false (by omega)
    show trie_insert (trie_addLens dic item k) (item.take (k + 1))
        (decide (k + 1 = item.length)) q = _
    by_cases hq : q = item.take (k + 1)
    · subst hq
      have hold := ih hk (item.take (k + 1))
      have hP : inDomP seen item k (item.take (k + 1)) = inDom seen (item.take (k + 1)) := by
        simp only [inDomP, hdlek, Bool.and_false, Bool.or_false]
      rw [hP] at hold
      by_cases hdom : inDom seen (item.take (k + 1)) = true
      · rw [if_pos hdom] at hold
        have hPn : inDomP seen item (k + 1) (item.take (k + 1)) = true := by
          simp only [inDomP, hdom, Bool.true_or]
        have hd0 : doneP seen item k (item.take (k + 1)) =
            !strictExt seen (item.take (k + 1)) := by
          simp only [doneP, hdlek, Bool.and_false, Bool.not_false, Bool.and_true]
          rw [if_pos hdom]
        by_cases hlast : k + 1 = item.length
        · have hki : item.take (k + 1) = item := hkeyitem.mpr hlast
          have hdeq : decide (item.take (k + 1) ≠ item) = false :=
            decide_eq_false (by simp [hki])
          have hdeqt : decide (item.take (k + 1) = item) = true := decide_eq_true hki
          have hd1 : doneP seen item (k + 1) (item.take (k + 1)) =
              !strictExt seen (item.take (k + 1)) := by
            simp only [doneP, hdeq, Bool.and_false, Bool.false_and, Bool.not_false,
              Bool.and_true]
            rw [if_pos hdom]
          have hm1 : mtchP seen item (k + 1) (item.take (k + 1)) = true := by
            simp only [mtchP, hdeqt, hdlek1, Bool.and_self, Bool.or_true]
          rw [decide_eq_true hlast, trie_insert_self_of_some_true _ _ _ _ hold,
            if_pos hPn, hd0, hd1, hm1]
        · have hkine : item.take (k + 1) ≠ item := fun h => hlast (hkeyitem.mp h)
          have hdeqf : decide (item.take (k + 1) = item) = false := decide_eq_false hkine
          have hdnef : decide (item.take (k + 1) ≠ item) = true := decide_eq_true hkine
          have hd1f : doneP seen item (k + 1) (item.take (k + 1)) = false := by
            simp only [doneP, hdpre, hdnef, hdlek1, Bool.and_self, Bool.not_true,
              Bool.and_false]
          have hm1e : mtchP seen item (k + 1) (item.take (k + 1)) =
              memberOf seen (item.take (k + 1)) := by
            simp only [mtchP, hdeqf, Bool.false_and, Bool.or_false]
          have hm0e : mtchP seen item k (item.take (k + 1)) =
              memberOf seen (item.take (k + 1)) := by
            simp only [mtchP, hdeqf, Bool.false_and, Bool.or_false]
          rw [decide_eq_false hlast, trie_insert_self_of_some_false _ _ _ _ hold,
            if_pos hPn, hd1f, hm1e, hm0e]
      · have hdomf : inDom seen (item.take (k + 1)) = false := by
          cases h : inDom seen (item.take (k + 1))
          · rfl
          · exact absurd h hdom
        rw [if_neg hdom] at hold
        have hPn : inDomP seen item (k + 1) (item.take (k + 1)) = true := by
          simp only [inDomP, hdomf, Bool.false_or, hdne, hdpre, hdlek1, Bool.and_self]
        have hmemf : memberOf seen (item.take (k + 1)) = false := by
          cases h : memberOf seen (item.take (k + 1))
          · rfl
          · exact absurd (memberOf_inDom h hkeyne) hdom
        have hdone : doneP seen item (k + 1) (item.take (k + 1)) =
            decide (k + 1 = item.length) := by
          simp only [doneP, hdpre, hdlek1, Bool.true_and, Bool.and_true, decide_not,
            Bool.not_not]
          rw [if_neg hdom, Bool.and_self]
          exact decide_eq_decide.mpr hkeyitem
        have hmtch : mtchP seen item (k + 1) (item.take (k + 1)) =
            decide (k + 1 = item.length) := by
          simp only [mtchP, hmemf, Bool.false_or, hdlek1, Bool.and_true]
          exact decide_eq_decide.mpr hkeyitem
        rw [trie_insert_self_of_none _ _ _ hold, if_pos hPn, hdone, hmtch]
    · rw [trie_insert_eq_of_ne _ _ _ _ hq, ih hk q]
      have hcrit : ¬(q <+: item ∧ q.length = k + 1) := by
        rintro ⟨hp, hl⟩
        exact hq (by rw [List.prefix_iff_eq_take.mp hp, hl])
      have hqitem : q = item → ¬ q.length ≤ k + 1 := by
        intro h hlen
        apply hcrit
        refine ⟨by rw [h], ?_⟩
        have : q.length = item.length := by rw [h]
        omega
      have h1 : inDomP seen item (k + 1) q = inDomP seen item k q := by
        apply bool_eq_of_iff
        simp only [inDomP, Bool.or_eq_true, Bool.and_eq_true, decide_eq_true_eq]
        constructor
        · rintro (h | ⟨⟨hne, hp⟩, hlen⟩)
          · exact Or.inl h
          · refine Or.inr ⟨⟨hne, hp⟩, ?_⟩
            rcases Nat.lt_or_ge q.length (k + 1) with h' | h'
            · omega
            · exact absurd ⟨hp, by omega⟩ hcrit
        · rintro (h | ⟨⟨hne, hp⟩, hlen⟩)
          · exact Or.inl h
          · exact Or.inr ⟨⟨hne, hp⟩, by omega⟩
      have h2 : mtchP seen item (k + 1) q = mtchP seen item k q := by
        apply bool_eq_of_iff
        simp only [mtchP, Bool.or_eq_true, Bool.and_eq_true, decide_eq_true_eq]
        constructor
        · rintro (h | ⟨hqi, hlen⟩)
          · exact Or.inl h
          · exact absurd hlen (hqitem hqi)
        · rintro (h | ⟨hqi, hlen⟩)
          · exact Or.inl h
          · exact absurd (by omega) (hqitem hqi)
      have h3 : doneP seen item (k + 1) q = doneP seen item k q := by
        have he : (decide (q <+: item) && decide (q ≠ item) && decide (q.length ≤ k + 1)) =
            (decide (q <+: item) && decide (q ≠ item) && decide (q.length ≤ k)) := by
          apply bool_eq_of_iff
          simp only [Bool.and_eq_true, decide_eq_true_eq]
          constructor
          · rintro ⟨⟨hp, hne⟩, hlen⟩
            refine ⟨⟨hp, hne⟩, ?_⟩
            rcases Nat.lt_or_ge q.length (k + 1) with h' | h'
            · omega
            · exact absurd ⟨hp, by omega⟩ hcrit
          · rintro ⟨⟨hp, hne⟩, hlen⟩
            exact ⟨⟨hp, hne⟩, by omega⟩
        simp only [doneP, he]
      rw [h1, h2, h3]

theorem trie_addItem_spec (seen : List (List Char)) (item : List Char)
    (dic : List Char → Option Info) (hdic : ∀ q, dic q = trieSpec seen q) :
    ∀ q, trie_addItem dic item q = trieSpec (seen ++ [item]) q := by
  intro q
  unfold trie_addItem
  rw [trie_addLens_spec seen item dic hdic item.length (le_refl _) q]
  by_cases hq : q = []
  · subst hq
    have h1 : inDomP seen item item.length [] = false := by
      simp [inDomP, inDom]
    have h2 : inDom (seen ++ [item]) ([] : List Char) = false := by simp [inDom]
    rw [h1, trieSpec, h2]
    simp
  · have hred : (decide (q <+: item) && decide (q ≠ item) && decide (q.length ≤ item.length)) =
        decide (q <+: item ∧ q ≠ item) := by
      apply bool_eq_of_iff
      simp only [Bool.and_eq_true, decide_eq_true_eq]
      constructor
      · rintro ⟨⟨hp, hne⟩, _⟩
        exact ⟨hp, hne⟩
      · rintro ⟨hp, hne⟩
        exact ⟨⟨hp, hne⟩, hp.length_le⟩
    have hsplit : strictExt (seen ++ [item]) q =
        (strictExt seen q || decide (q <+: item ∧ q ≠ item)) := by
      simp [strictExt, List.any_append]
    have hcond : inDomP seen item item.length q = inDom (seen ++ [item]) q := by
      apply bool_eq_of_iff
      simp only [inDomP, inDom, Bool.or_eq_true, Bool.and_eq_true, decide_eq_true_eq,
        List.any_eq_true, List.mem_append, List.mem_singleton]
      constructor
      · rintro (⟨hne, p, hp, hpre⟩ | ⟨⟨hne, hpre⟩, hlen⟩)
        · exact ⟨hne, p, Or.inl hp, hpre⟩
        · exact ⟨hne, item, Or.inr rfl, hpre⟩
      · rintro ⟨hne, p, hp | rfl, hpre⟩
        · exact Or.inl ⟨hne, p, hp, hpre⟩
        · exact Or.inr ⟨⟨hne, hpre⟩, hpre.length_le⟩
    rw [trieSpec, hcond]
    by_cases hdom2 : inDom (seen ++ [item]) q = true
    · rw [if_pos hdom2, if_pos hdom2]
      have hm : mtchP seen item item.length q = memberOf (seen ++ [item]) q := by
        apply bool_eq_of_iff
        simp only [mtchP, memberOf, Bool.or_eq_true, Bool.and_eq_true, decide_eq_true_eq,
          List.mem_append, List.mem_singleton]
        constructor
        · rintro (h | ⟨rfl, _⟩)
          · exact Or.inl h
          · exact Or.inr rfl
        · rintro (h | rfl)
          · exact Or.inl h
          · exact Or.inr ⟨rfl, le_refl _⟩
      have hd : doneP seen item item.length q = !strictExt (seen ++ [item]) q := by
        by_cases hds : inDom seen q = true
        · rw [doneP, hred, if_pos hds, ← Bool.not_or, ← hsplit]
        · have hsf : strictExt seen q = false := by
            cases h : strictExt seen q
            · rfl
            · exfalso
              apply hds
              simp only [strictExt, List.any_eq_true, decide_eq_true_eq] at h
              obtain ⟨p, hp, hpre, _⟩ := h
              simp only [inDom, Bool.and_eq_true, decide_eq_true_eq, List.any_eq_true]
              exact ⟨hq, p, hp, hpre⟩
          have hqi : q <+: item := by
            simp only [inDom, Bool.and_eq_true, decide_eq_true_eq,
              List.any_eq_true, List.mem_append, List.mem_singleton] at hdom2
            obtain ⟨hne, p, hp | rfl, hpre⟩ := hdom2
            · exact absurd (by
                simp only [inDom, Bool.and_eq_true, decide_eq_true_eq, List.any_eq_true]
                exact ⟨hq, p, hp, hpre⟩) hds
            · exact hpre
          rw [doneP, hred, if_neg hds, hsplit, hsf, Bool.false_or]
          apply bool_eq_of_iff
          simp only [Bool.and_eq_true, Bool.not_eq_true', decide_eq_true_eq,
            decide_eq_false_iff_not]
          constructor
          · rintro ⟨_, h⟩
            exact h
          · intro h
            refine ⟨?_, h⟩
            by_contra hne
            exact h ⟨hqi, hne⟩
      rw [hd, hm]
    · rw [if_neg hdom2, if_neg hdom2]

theorem Trie_build_spec (P : List (List Char)) : ∀ q, Trie_build P q = trieSpec P q := by
  suffices h : ∀ (items seen : List (List Char)) (dic : List Char → Option Info),
      (∀ q, dic q = trieSpec seen q) →
      ∀ q, items.foldl trie_addItem dic q = trieSpec (seen ++ items) q by
    intro q
    have h0 : ∀ r, (fun _ : List Char => (none : Option Info)) r = trieSpec [] r := by
      intro r
      simp [trieSpec, inDom]
    have := h P [] (fun _ => none) h0 q
    simpa using this
  intro items
  induction items with
  | nil =>
    intro seen dic hdic q
    simpa using hdic q
  | cons it its ih =>
    intro seen dic hdic q
    simp only [List.foldl_cons]
    have h2 := ih (seen ++ [it]) (trie_addItem dic it) (trie_addItem_spec seen it dic hdic) q
    simpa [List.append_assoc] using h2

/-! ### The match loop computes the longest matching pattern length -/

theorem Trie_matchAux_over (dic : List Char → Option Info) (text : List Char)
    (len acc : Nat) (h : ¬ len ≤ text.length) :
    Trie_matchAux dic text len acc = acc := by
  rw [Trie_matchAux, if_neg h]

theorem Trie_matchAux_none (dic : List Char → Option Info) (text : List Char)
    (len acc : Nat) (hle : len ≤ text.length) (h : dic (text.take len) = none) :
    Trie_matchAux dic text len acc = acc := by
  rw [Trie_matchAux, if_pos hle, h]

theorem Trie_matchAux_some (dic : List Char → Option Info) (text : List Char)
    (len acc : Nat) (d m : Bool) (hle : len ≤ text.length)
    (h : dic (text.take len) = some ⟨d, m⟩) :
    Trie_matchAux dic text len acc =
      (if d then (if m then len else acc)
       else Trie_matchAux dic text (len + 1) (if m then len else acc)) := by
  rw [Trie_matchAux, if_pos hle, h]

theorem bestFrom_le (P : List (List Char)) (s : List Char) (len : Nat)
    (p : List Char) (hp : p ∈ P) (hpre : p <+: s) (hlen : len ≤ p.length) :
    p.length ≤ bestFrom P s len := by
  induction P with
  | nil => cases hp
  | cons a Q ih =>
    rcases List.mem_cons.mp hp with rfl | hp'
    · show (if p <+: s ∧ len ≤ p.length then max p.length (bestFrom Q s len)
        else bestFrom Q s len) ≥ p.length
      rw [if_pos ⟨hpre, hlen⟩]
      exact le_max_left _ _
    · show p.length ≤ (if a <+: s ∧ len ≤ a.length then max a.length (bestFrom Q s len)
        else bestFrom Q s len)
      split
      · exact le_trans (ih hp') (le_max_right _ _)
      · exact ih hp'

theorem bestFrom_cases (P : List (List Char)) (s : List Char) (len : Nat) :
    bestFrom P s len = 0 ∨
      ∃ p ∈ P, p <+: s ∧ len ≤ p.length ∧ p.length = bestFrom P s len := by
  induction P with
  | nil => exact Or.inl rfl
  | cons a Q ih =>
    show bestFrom (a :: Q) s len = 0 ∨ _
    have hunf : bestFrom (a :: Q) s len =
        (if a <+: s ∧ len ≤ a.length then max a.length (bestFrom Q s len)
         else bestFrom Q s len) := rfl
    by_cases hc : a <+: s ∧ len ≤ a.length
    · rw [hunf, if_pos hc]
      rcases Nat.le_total a.length (bestFrom Q s len) with h' | h'
      · rcases ih with h0 | ⟨p, hp, h1, h2, h3⟩
        · rw [h0] at h' ⊢
          have : a.length = 0 := Nat.le_zero.mp h'
          exact Or.inr ⟨a, List.mem_cons_self a Q, hc.1, hc.2, by omega⟩
        · exact Or.inr ⟨p, List.mem_cons_of_mem a hp, h1, h2, by omega⟩
      · exact Or.inr ⟨a, List.mem_cons_self a Q, hc.1, hc.2, by omega⟩
    · rw [hunf, if_neg hc]
      rcases ih with h0 | ⟨p, hp, h1, h2, h3⟩
      · exact Or.inl h0
      · exact Or.inr ⟨p, List.mem_cons_of_mem a hp, h1, h2, h3⟩

theorem bestFrom_split (P : List (List Char)) (s : List Char) (len : Nat)
    (hlen : len ≤ s.length) :
    bestFrom P s len =
      max (if s.take len ∈ P then len else 0) (bestFrom P s (len + 1)) := by
  have htl : (s.take len).length = len := by rw [List.length_take]; omega
  induction P with
  | nil => simp [bestFrom]
  | cons a Q ih =>
    have hunf : ∀ j, bestFrom (a :: Q) s j =
        (if a <+: s ∧ j ≤ a.length then max a.length (bestFrom Q s j)
         else bestFrom Q s j) := fun _ => rfl
    have hifle : (if s.take len ∈ Q then len else 0) ≤ len := by split <;> omega
    by_cases hc : a <+: s ∧ len ≤ a.length
    · by_cases heq : a.length = len
      · have ha : a = s.take len := by
          rw [List.prefix_iff_eq_take.mp hc.1, heq]
        have hmem : s.take len ∈ a :: Q := by rw [← ha]; exact List.mem_cons_self a Q
        have hc2 : ¬(a <+: s ∧ len + 1 ≤ a.length) := by
          rintro ⟨_, h⟩; omega
        rw [hunf, hunf, if_pos hc, if_neg hc2, if_pos hmem, ih, heq]
        omega
      · have hne : a ≠ s.take len := by
          intro h
          apply heq
          rw [h, htl]
        have hmem : (s.take len ∈ a :: Q) ↔ (s.take len ∈ Q) := by
          constructor
          · intro h
            rcases List.mem_cons.mp h with h' | h'
            · exact absurd h'.symm hne
            · exact h'
          · exact List.mem_cons_of_mem a
        have hc2 : a <+: s ∧ len + 1 ≤ a.length := ⟨hc.1, by omega⟩
        rw [hunf, hunf, if_pos hc, if_pos hc2, ih]
        by_cases hm : s.take len ∈ Q
        · rw [if_pos hm, if_pos (hmem.mpr hm)]
          omega
        · rw [if_neg hm, if_neg (fun h => hm (hmem.mp h))]
          omega
    · have hc2 : ¬(a <+: s ∧ len + 1 ≤ a.length) := by
        rintro ⟨h1, h2⟩
        exact hc ⟨h1, by omega⟩
      have hne : a ≠ s.take len := by
        intro h
        apply hc
        constructor
        · rw [h]; exact List.take_prefix len s
        · rw [h, htl]
      have hmem : (s.take len ∈ a :: Q) ↔ (s.take len ∈ Q) := by
        constructor
        · intro h
          rcases List.mem_cons.mp h with h' | h'
          · exact absurd h'.symm hne
          · exact h'
        · exact List.mem_cons_of_mem a
      rw [hunf, hunf, if_neg hc, if_neg hc2, ih]
      by_cases hm : s.take len ∈ Q
      · rw [if_pos hm, if_pos (hmem.mpr hm)]
      · rw [if_neg hm, if_neg (fun h => hm (hmem.mp h))]

theorem take_of_mem_pre {p text : List Char} {len : Nat}
    (h : p <+: text) (hl : len ≤ p.length) : text.take len <+: p := by
  rcases h with ⟨t, rfl⟩
  rw [List.take_append_of_le_length hl]
  exact List.take_prefix len p

theorem bool_eq_false {b : Bool} (h : ¬ b = true) : b = false := by
  cases b
  · rfl
  · exact absurd rfl h

theorem Trie_matchAux_spec (P : List (List Char)) (text : List Char) :
    ∀ n len acc, text.length + 1 - len ≤ n → 0 < len → acc < len →
      Trie_matchAux (Trie_build P) text len acc = max acc (bestFrom P text len) := by
  intro n
  induction n with
  | zero =>
    intro len acc hn h0 hacc
    rw [Trie_matchAux_over _ _ _ _ (by omega)]
    rcases bestFrom_cases P text len with h | ⟨p, _, hpre, hlen, _⟩
    · rw [h]; omega
    · have := hpre.length_le
      omega
  | succ n ih =>
    intro len acc hn h0 hacc
    by_cases hle : len ≤ text.length
    · have htl : (text.take len).length = len := by rw [List.length_take]; omega
      have htne : text.take len ≠ [] := by
        intro h
        rw [h] at htl
        simp at htl
        omega
      have hsplit := bestFrom_split P text len hle
      by_cases hdom : inDom P (text.take len) = true
      · have hbuilt : Trie_build P (text.take len) =
            some ⟨!strictExt P (text.take len), memberOf P (text.take len)⟩ := by
          rw [Trie_build_spec, trieSpec, if_pos hdom]
        rw [Trie_matchAux_some _ _ _ _ _ _ hle hbuilt]
        have hmemP : memberOf P (text.take len) = true ↔ text.take len ∈ P := by
          simp [memberOf]
        by_cases hse : strictExt P (text.take len) = true
        · -- some pattern extends this prefix: the loop continues
          have hacc2 : (if memberOf P (text.take len) then len else acc) < len + 1 := by
            split <;> omega
          have hrec := ih (len + 1) (if memberOf P (text.take len) then len else acc)
            (by omega) (by omega) hacc2
          rw [hse]
          simp only [Bool.not_true, Bool.false_eq_true, if_false]
          rw [hrec, hsplit]
          by_cases hm : memberOf P (text.take len) = true
          · rw [hm, if_pos rfl, if_pos (hmemP.mp hm)]
            omega
          · rw [bool_eq_false hm, if_neg (by simp), if_neg (fun h => hm (hmemP.mpr h))]
            omega
        · -- dead end: the loop stops here
          have hsf : strictExt P (text.take len) = false := bool_eq_false hse
          rw [hsf, Bool.not_false, if_pos rfl]
          have hb1 : bestFrom P text (len + 1) = 0 := by
            rcases bestFrom_cases P text (len + 1) with h | ⟨p, hp, hpre, hlen, hval⟩
            · exact h
            · exfalso
              have hQp : text.take len <+: p := take_of_mem_pre hpre (by omega)
              have hQne : text.take len ≠ p := by
                intro h
                have := congrArg List.length h
                rw [htl] at this
                omega
              have hst : strictExt P (text.take len) = true := by
                simp only [strictExt, List.any_eq_true, decide_eq_true_eq]
                exact ⟨p, hp, hQp, hQne⟩
              rw [hst] at hsf
              exact Bool.noConfusion hsf
          rw [hsplit, hb1]
          by_cases hm : memberOf P (text.take len) = true
          · rw [hm, if_pos rfl, if_pos (hmemP.mp hm)]
            omega
          · rw [bool_eq_false hm, if_neg (by simp), if_neg (fun h => hm (hmemP.mpr h))]
            omega
      · have hnone : Trie_build P (text.take len) = none := by
          rw [Trie_build_spec, trieSpec, if_neg hdom]
        rw [Trie_matchAux_none _ _ _ _ hle hnone]
        have hb : bestFrom P text len = 0 := by
          rcases bestFrom_cases P text len with h | ⟨p, hp, hpre, hlen, hval⟩
          · exact h
          · exfalso
            apply hdom
            simp only [inDom, Bool.and_eq_true, decide_eq_true_eq, List.any_eq_true]
            exact ⟨htne, p, hp, take_of_mem_pre hpre hlen⟩
        rw [hb]
        omega
    · rw [Trie_matchAux_over _ _ _ _ hle]
      rcases bestFrom_cases P text len with h | ⟨p, _, hpre, hlen, _⟩
      · rw [h]; omega
      · have := hpre.length_le
        omega

/-- The public query entry point computes `bestFrom` at probe length 1. -/
theorem Trie_match_eq_bestFrom (P : List (List Char)) (s : List Char) :
    Trie_match (Trie_build P) s = bestFrom P s 1 := by
  unfold Trie_match
  rw [Trie_matchAux_spec P s (s.length + 1) 1 0 (by omega) (by omega) (by omega)]
  omega

/-! ## Behaviour of the escape resolver -/

theorem isOk_map (f : List Nat → List Nat) (r : Except EscapeError (List Nat)) :
    (Except.map f r).isOk = r.isOk := by
  cases r <;> rfl

theorem getLast?_of_sfx {s l : List Nat} {x : Nat} (hs : s <:+ l)
    (h : s.getLast? = some x) : l.getLast? = some x := by
  obtain ⟨t, rfl⟩ := hs
  rw [List.getLast?_append, h]
  rfl

/-- Any input whose last byte is not a backslash resolves successfully. -/
theorem resolve_isOk (s : List Nat) :
    s.getLast? ≠ some 92 → (resolve_escape_sequence s).isOk = true := by
  induction s using resolve_escape_sequence.induct with
  | case1 =>
    intro _
    simp [resolve_escape_sequence, Except.isOk, Except.toBool]
  | case2 =>
    intro h
    exact absurd (by simp) h
  | case3 tail ih =>
    intro h
    simp [resolve_escape_sequence, isOk_map]
    exact ih fun hl => h (getLast?_of_sfx
      ((List.suffix_cons 102 tail).trans (List.suffix_cons 92 _)) hl)
  | case4 tail _ ih =>
    intro h
    simp [resolve_escape_sequence, isOk_map]
    exact ih fun hl => h (getLast?_of_sfx
      ((List.suffix_cons 110 tail).trans (List.suffix_cons 92 _)) hl)
  | case5 tail _ _ ih =>
    intro h
    simp [resolve_escape_sequence, isOk_map]
    exact ih fun hl => h (getLast?_of_sfx
      ((List.suffix_cons 114 tail).trans (List.suffix_cons 92 _)) hl)
  | case6 tail _ _ _ ih =>
    intro h
    simp [resolve_escape_sequence, isOk_map]
    exact ih fun hl => h (getLast?_of_sfx
      ((List.suffix_cons 116 tail).trans (List.suffix_cons 92 _)) hl)
  | case7 tail _ _ _ _ ih =>
    intro h
    simp [resolve_escape_sequence, isOk_map]
    exact ih fun hl => h (getLast?_of_sfx
      ((List.suffix_cons 118 tail).trans (List.suffix_cons 92 _)) hl)
  | case8 tail _ _ _ _ _ ih =>
    intro h
    simp [resolve_escape_sequence, isOk_map]
    exact ih fun hl => h (getLast?_of_sfx
      ((List.suffix_cons 39 tail).trans (List.suffix_cons 92 _)) hl)
  | case9 tail _ _ _ _ _ _ ih =>
    intro h
    simp [resolve_escape_sequence, isOk_map]
    exact ih fun hl => h (getLast?_of_sfx
      ((List.suffix_cons 34 tail).trans (List.suffix_cons 92 _)) hl)
  | case10 tail _ _ _ _ _ _ _ ih =>
    intro h
    simp [resolve_escape_sequence, isOk_map]
    exact ih fun hl => h (getLast?_of_sfx
      ((List.suffix_cons 91 tail).trans (List.suffix_cons 92 _)) hl)
  | case11 tail _ _ _ _ _ _ _ _ ih =>
    intro h
    simp [resolve_escape_sequence, isOk_map]
    exact ih fun hl => h (getLast?_of_sfx
      ((List.suffix_cons 93 tail).trans (List.suffix_cons 92 _)) hl)
  | case12 tail _ _ _ _ _ _ _ _ _ ih =>
    intro h
    simp [resolve_escape_sequence, isOk_map]
    exact ih fun hl => h (getLast?_of_sfx
      ((List.suffix_cons 92 tail).trans (List.suffix_cons 92 _)) hl)
  | case13 b tail h1 h2 h3 h4 h5 h6 h7 h8 h9 h10 hbu ih =>
    intro h
    simp [resolve_escape_sequence, isOk_map, h1, h2, h3, h4, h5, h6, h7, h8, h9, h10, hbu]
    exact ih fun hl => h (getLast?_of_sfx
      ((parse_hex_number_sfx 0 tail).trans
        ((List.suffix_cons b tail).trans (List.suffix_cons 92 _))) hl)
  | case14 b tail h1 h2 h3 h4 h5 h6 h7 h8 h9 h10 hbu ih =>
    intro h
    simp [resolve_escape_sequence, isOk_map, h1, h2, h3, h4, h5, h6, h7, h8, h9, h10, hbu]
    exact ih fun hl => h (getLast?_of_sfx
      ((parse_octal_number_sfx 0 (b :: tail)).trans (List.suffix_cons 92 _)) hl)
  | case15 b tail hb ih =>
    intro h
    cases tail with
    | nil => simp [resolve_escape_sequence, hb, Except.isOk, Except.toBool, Except.map]
    | cons e tail2 =>
      simp [resolve_escape_sequence, isOk_map, hb]
      exact ih fun hl => h (getLast?_of_sfx (List.suffix_cons b (e :: tail2)) hl)

/-- A failing run can only be caused by a trailing backslash byte. -/
theorem resolve_error_getLast (s : List Nat)
    (h : resolve_escape_sequence s = Except.error EscapeError.malformedEscape) :
    s.getLast? = some 92 := by
  by_contra hne
  have hok := resolve_isOk s hne
  rw [h] at hok
  exact Bool.noConfusion hok

/-! ## Accumulation performed by the two digit parsers -/

/-- Spec-side value of an octal escape's digit string: radix-8 accumulation
of the decimal digit values. -/
def octal_value (ds : List Nat) : Nat :=
  ds.foldl (fun a c => a * 8 + (c - 48)) 0

/-- Spec-side value of a hex escape's digit string. -/
def hex_value (ds : List Nat) : Nat :=
  ds.foldl (fun a c => a * 16 + (is_hex c).getD 0) 0

theorem parse_octal_digits (ds : List Nat) :
    ∀ (rest : List Nat) (r : Nat),
      (∀ c ∈ ds, 48 ≤ c ∧ c ≤ 57) →
      (∀ c, rest.head? = some c → ¬(48 ≤ c ∧ c ≤ 57)) →
      parse_octal_number r (ds ++ rest) =
        (ds.foldl (fun a c => a * 8 + (c - 48)) r, rest) := by
  induction ds with
  | nil =>
    intro rest r _ hr
    cases rest with
    | nil => simp [parse_octal_number]
    | cons c t =>
      have hc := hr c rfl
      have hdig : is_digit c = none := by
        rw [is_digit, if_neg hc]
      simp only [List.nil_append, List.foldl_nil, parse_octal_number, hdig]
  | cons d ds ih =>
    intro rest r hd hr
    have hdd := hd d (List.mem_cons_self d ds)
    have hdig : is_digit d = some (d - 48) := by
      rw [is_digit, if_pos hdd]
    simp only [List.cons_append, parse_octal_number, hdig, List.foldl_cons]
    exact ih rest (r * 8 + (d - 48)) (fun c hc => hd c (List.mem_cons_of_mem d hc)) hr

theorem parse_hex_digits (ds : List Nat) :
    ∀ (rest : List Nat) (r : Nat),
      (∀ c ∈ ds, (is_hex c).isSome = true) →
      (∀ c, rest.head? = some c → is_hex c = none) →
      parse_hex_number r (ds ++ rest) =
        (ds.foldl (fun a c => a * 16 + (is_hex c).getD 0) r, rest) := by
  induction ds with
  | nil =>
    intro rest r _ hr
    cases rest with
    | nil => simp [parse_hex_number]
    | cons c t =>
      have hc := hr c rfl
      simp only [List.nil_append, List.foldl_nil, parse_hex_number, hc]
  | cons d ds ih =>
    intro rest r hd hr
    have hdd := hd d (List.mem_cons_self d ds)
    obtain ⟨v, hv⟩ := Option.isSome_iff_exists.mp hdd
    simp only [List.cons_append, parse_hex_number, hv, List.foldl_cons, Option.getD_some]
    exact ih rest (r * 16 + v) (fun c hc => hd c (List.mem_cons_of_mem d hc)) hr

/-- A backslash followed by a digit string resolves through the octal
parser: the maximal digit run is consumed, its radix-8 value encoded. -/
theorem resolve_octal_escape (ds rest : List Nat) (hne : ds ≠ [])
    (hd : ∀ c ∈ ds, 48 ≤ c ∧ c ≤ 57)
    (hr : ∀ c, rest.head? = some c → ¬(48 ≤ c ∧ c ≤ 57)) :
    resolve_escape_sequence (92 :: ds ++ rest) =
      Except.map (fun t => encode_codepoint (octal_value ds) ++ t)
        (resolve_escape_sequence rest) := by
  obtain ⟨d, ds', rfl⟩ : ∃ d ds', ds = d :: ds' := by
    cases ds with
    | nil => exact absurd rfl hne
    | cons d ds' => exact ⟨d, ds', rfl⟩
  have hd0 := hd d (List.mem_cons_self d ds')
  have h1 : ¬d = 102 := by omega
  have h2 : ¬d = 110 := by omega
  have h3 : ¬d = 114 := by omega
  have h4 : ¬d = 116 := by omega
  have h5 : ¬d = 118 := by omega
  have h6 : ¬d = 39 := by omega
  have h7 : ¬d = 34 := by omega
  have h8 : ¬d = 91 := by omega
  have h9 : ¬d = 93 := by omega
  have h10 : ¬d = 92 := by omega
  have hbu : ¬(d = 120 ∨ d = 117) := by omega
  have hp := parse_octal_digits (d :: ds') rest 0 hd hr
  simp only [List.cons_append] at hp ⊢
  simp [resolve_escape_sequence, h1, h2, h3, h4, h5, h6, h7, h8, h9, h10, hbu]
  rw [hp]
  rfl

/-- A `\x`/`\u` escape resolves through the hex parser: the maximal hex
digit run is consumed and its value encoded. -/
theorem resolve_hex_escape (u : Nat) (hu : u = 120 ∨ u = 117) (ds rest : List Nat)
    (hd : ∀ c ∈ ds, (is_hex c).isSome = true)
    (hr : ∀ c, rest.head? = some c → is_hex c = none) :
    resolve_escape_sequence (92 :: u :: ds ++ rest) =
      Except.map (fun t => encode_codepoint (hex_value ds) ++ t)
        (resolve_escape_sequence rest) := by
  have h1 : ¬u = 102 := by omega
  have h2 : ¬u = 110 := by omega
  have h3 : ¬u = 114 := by omega
  have h4 : ¬u = 116 := by omega
  have h5 : ¬u = 118 := by omega
  have h6 : ¬u = 39 := by omega
  have h7 : ¬u = 34 := by omega
  have h8 : ¬u = 91 := by omega
  have h9 : ¬u = 93 := by omega
  have h10 : ¬u = 92 := by omega
  have hp := parse_hex_digits ds rest 0 hd hr
  simp [resolve_escape_sequence, h1, h2, h3, h4, h5, h6, h7, h8, h9, h10, hu]
  rw [hp]
  rfl

/-! ## Non-termination of `codepoint_count` on an invalid lead byte -/

theorem codepoint_countAux_stuck : ∀ fuel count : Nat,
    codepoint_countAux [0x80] fuel 0 count = none := by
  intro fuel
  induction fuel with
  | zero => intro count; rfl
  | succ n ih =>
    intro count
    have hstep : codepoint_countAux [0x80] (n + 1) 0 count =
        codepoint_countAux [0x80] n (0 + codepoint_length (List.drop 0 [0x80])) (count + 1) := by
      simp only [codepoint_countAux]
      rw [if_pos (by decide : 0 < ([0x80] : List Nat).length)]
    rw [hstep, show 0 + codepoint_length (List.drop 0 [0x80]) = 0 from by decide]
    exact ih (count + 1)

/-! ## Concrete runs of the resolver used by the claims -/

theorem resolve_nil_eval : resolve_escape_sequence [] = Except.ok [] := by
  simp [resolve_escape_sequence]

theorem resolve_lone_backslash_eval :
    resolve_escape_sequence [92] = Except.error EscapeError.malformedEscape := by
  simp [resolve_escape_sequence]

theorem resolve_escaped_backslash_eval :
    resolve_escape_sequence [92, 92] = Except.ok [92] := by
  simp [resolve_escape_sequence, Except.map]

theorem resolve_zero_digit_hex_eval :
    resolve_escape_sequence [92, 120] = Except.ok [0] := by
  simp [resolve_escape_sequence, parse_hex_number, encode_codepoint, Except.map]

theorem resolve_zero_digit_octal_eval :
    resolve_escape_sequence [92, 112] = Except.ok [0, 112] := by
  simp [resolve_escape_sequence, parse_octal_number, is_digit, encode_codepoint, Except.map]

theorem resolve_octal_101_eval :
    resolve_escape_sequence [92, 49, 48, 49] = Except.ok [65] := by
  simp [resolve_escape_sequence, parse_octal_number, is_digit, encode_codepoint, Except.map]
  decide

theorem resolve_octal_8_eval :
    resolve_escape_sequence [92, 56] = Except.ok [8] := by
  simp [resolve_escape_sequence, parse_octal_number, is_digit, encode_codepoint, Except.map]
  decide

theorem resolve_octal_99_eval :
    resolve_escape_sequence [92, 57, 57] = Except.ok [81] := by
  simp [resolve_escape_sequence, parse_octal_number, is_digit, encode_codepoint, Except.map]
  decide

/-! ## Byte classification by range (used to state the `codepoint_length`
table without bit masks) -/

theorem byte_mask_1 (b : Nat) (hb : b < 256) : (b &&& 0x80 = 0) ↔ (b < 0x80) := by
  have l : ∀ x : Fin 256, ((x.val &&& 0x80 = 0) ↔ (x.val < 0x80)) := by decide
  exact l ⟨b, hb⟩

theorem byte_mask_2 (b : Nat) (hb : b < 256) :
    (b &&& 0xE0 = 0xC0) ↔ (0xC0 ≤ b ∧ b < 0xE0) := by
  have l : ∀ x : Fin 256, ((x.val &&& 0xE0 = 0xC0) ↔ (0xC0 ≤ x.val ∧ x.val < 0xE0)) := by
    decide
  exact l ⟨b, hb⟩

theorem byte_mask_3 (b : Nat) (hb : b < 256) :
    (b &&& 0xF0 = 0xE0) ↔ (0xE0 ≤ b ∧ b < 0xF0) := by
  have l : ∀ x : Fin 256, ((x.val &&& 0xF0 = 0xE0) ↔ (0xE0 ≤ x.val ∧ x.val < 0xF0)) := by
    decide
  exact l ⟨b, hb⟩

theorem byte_mask_4 (b : Nat) (hb : b < 256) :
    (b &&& 0xF8 = 0xF0) ↔ (0xF0 ≤ b ∧ b < 0xF8) := by
  have l : ∀ x : Fin 256, ((x.val &&& 0xF8 = 0xF0) ↔ (0xF0 ≤ x.val ∧ x.val < 0xF8)) := by
    decide
  exact l ⟨b, hb⟩

/-- Nonempty encoder output characterizes the valid scalar domain. -/
theorem encode_ne_nil_valid (v : Nat) (h : encode_codepoint v ≠ []) :
    v < 0xD800 ∨ (0xE000 ≤ v ∧ v < 0x110000) := by
  by_contra hbad
  push_neg at hbad
  obtain ⟨hge, himp⟩ := hbad
  rcases Nat.lt_or_ge v 0xE000 with hlt | hge2
  · exact h (encode_eq_nil_surrogate v hge hlt)
  · exact h (encode_eq_nil_overflow v (himp hge2))

/-! ## The claims -/

/-- C1: For every pattern set `P` and every query string `s`, a Trie built
from `P` satisfies `longestMatch(s, |s|)` = the length of the longest
element of `P` that is a prefix of `s`, and 0 if no element of `P` is a
prefix of `s`. -/
theorem trie_longestMatch_correct (P : List (List Char)) (s : List Char) :
    (∀ p ∈ P, p <+: s → p.length ≤ Trie_match (Trie_build P) s) ∧
    (Trie_match (Trie_build P) s = 0 ∨
      ∃ p ∈ P, p <+: s ∧ p.length = Trie_match (Trie_build P) s) := by
  constructor
  · intro p hp hpre
    rcases Nat.eq_zero_or_pos p.length with h0 | h0
    · omega
    · rw [Trie_match_eq_bestFrom]
      exact bestFrom_le P s 1 p hp hpre h0
  · rw [Trie_match_eq_bestFrom]
    rcases bestFrom_cases P s 1 with h | ⟨p, hp, h1, _, h3⟩
    · exact Or.inl h
    · exact Or.inr ⟨p, hp, h1, h3⟩

theorem trie_longestMatch_correct_witness :
    (∀ p ∈ ["if".toList, "in".toList, "int".toList], p <+: "integer".toList →
      p.length ≤ Trie_match (Trie_build ["if".toList, "in".toList, "int".toList])
        "integer".toList) ∧
    (Trie_match (Trie_build ["if".toList, "in".toList, "int".toList]) "integer".toList = 0 ∨
      ∃ p ∈ ["if".toList, "in".toList, "int".toList], p <+: "integer".toList ∧
        p.length = Trie_match (Trie_build ["if".toList, "in".toList, "int".toList])
          "integer".toList) :=
  trie_longestMatch_correct ["if".toList, "in".toList, "int".toList] "integer".toList

/-- C2: the claim says `codepoint_count` always terminates because the
scanner advances by at least 1 when `codepoint_length` returns 0.  The code
advances by `codepoint_length` itself (`i += codepoint_length(s8+i, l-i)`),
so on the 1-byte buffer `0x80` (an invalid lead byte, length 0) the loop
index never moves: no iteration budget ever finishes the loop. -/
theorem codepoint_count_diverges_on_invalid_byte :
    codepoint_length [0x80] = 0 ∧
    ∀ fuel count : Nat, codepoint_countAux [0x80] fuel 0 count = none :=
  ⟨by decide, codepoint_countAux_stuck⟩

theorem codepoint_count_diverges_witness :
    codepoint_countAux [0x80] 5 0 0 = none :=
  codepoint_count_diverges_on_invalid_byte.2 5 0

/-- C3: for every scalar value `v` in `[0, 0x10FFFF]` excluding the
surrogate range, decoding the bytes produced by `encode_codepoint v`
succeeds and yields exactly `(v, len)`, where `len` is the byte count
predicted by the boundary table. -/
theorem encode_decode_roundtrip (v : Nat) (h1 : v < 0x110000)
    (h2 : ¬(0xD800 ≤ v ∧ v < 0xE000)) :
    decode_codepoint (encode_codepoint v) = some (v, utf8_len v) ∧
    (encode_codepoint v).length = utf8_len v := by
  have h2' : v < 0xD800 ∨ 0xE000 ≤ v := by omega
  refine ⟨decode_encode v h1 h2', ?_⟩
  rcases Nat.lt_or_ge v 0x80 with hr | hr
  · rw [encode_eq_one v hr]
    unfold utf8_len
    split_ifs <;> simp <;> omega
  rcases Nat.lt_or_ge v 0x800 with hr2 | hr2
  · rw [encode_eq_two v hr hr2]
    unfold utf8_len
    split_ifs <;> simp <;> omega
  rcases Nat.lt_or_ge v 0x10000 with hr3 | hr3
  · rw [encode_eq_three v hr2 (by omega)]
    unfold utf8_len
    split_ifs <;> simp <;> omega
  · rw [encode_eq_four v hr3 h1]
    unfold utf8_len
    split_ifs <;> simp <;> omega

theorem encode_decode_roundtrip_witness :
    decode_codepoint (encode_codepoint 0x10FFFF) = some (0x10FFFF, utf8_len 0x10FFFF) ∧
    (encode_codepoint 0x10FFFF).length = utf8_len 0x10FFFF :=
  encode_decode_roundtrip 0x10FFFF (by norm_num) (by norm_num)

/-- C4: `encode_codepoint` maps every 32-bit scalar to UTF-8 bytes using
exactly the boundaries `<0x80` → 1 byte, `<0x800` → 2, `<0xD800` → 3,
`[0xD800, 0xE000)` → empty, `<0x10000` → 3, `<0x110000` → 4,
`≥ 0x110000` → empty, with canonical lead- and continuation-byte bit
patterns. -/
theorem encode_codepoint_boundary_table (cp : Nat) (hcp : cp < 2 ^ 32) :
    (cp < 0x80 → encode_codepoint cp = [cp]) ∧
    (0x80 ≤ cp → cp < 0x800 → ∃ b0 b1, encode_codepoint cp = [b0, b1] ∧
      b0 &&& 0xE0 = 0xC0 ∧ b1 &&& 0xC0 = 0x80) ∧
    (0x800 ≤ cp → cp < 0xD800 → ∃ b0 b1 b2, encode_codepoint cp = [b0, b1, b2] ∧
      b0 &&& 0xF0 = 0xE0 ∧ b1 &&& 0xC0 = 0x80 ∧ b2 &&& 0xC0 = 0x80) ∧
    (0xD800 ≤ cp → cp < 0xE000 → encode_codepoint cp = []) ∧
    (0xE000 ≤ cp → cp < 0x10000 → ∃ b0 b1 b2, encode_codepoint cp = [b0, b1, b2] ∧
      b0 &&& 0xF0 = 0xE0 ∧ b1 &&& 0xC0 = 0x80 ∧ b2 &&& 0xC0 = 0x80) ∧
    (0x10000 ≤ cp → cp < 0x110000 → ∃ b0 b1 b2 b3, encode_codepoint cp = [b0, b1, b2, b3] ∧
      b0 &&& 0xF8 = 0xF0 ∧ b1 &&& 0xC0 = 0x80 ∧ b2 &&& 0xC0 = 0x80 ∧ b3 &&& 0xC0 = 0x80) ∧
    (0x110000 ≤ cp → encode_codepoint cp = []) := by
  refine ⟨fun h => encode_eq_one cp h, fun ha hb => ?_, fun ha hb => ?_,
    fun ha hb => encode_eq_nil_surrogate cp ha hb, fun ha hb => ?_, fun ha hb => ?_,
    fun h => encode_eq_nil_overflow cp h⟩
  · refine ⟨_, _, encode_eq_two cp ha hb, lead2_and_E0 _ (by omega), cont_and_C0 _ (by omega)⟩
  · refine ⟨_, _, _, encode_eq_three cp ha (Or.inl hb), lead3_and_F0 _ (by omega),
      cont_and_C0 _ (by omega), cont_and_C0 _ (by omega)⟩
  · refine ⟨_, _, _, encode_eq_three cp (by omega) (Or.inr ⟨ha, hb⟩), lead3_and_F0 _ (by omega),
      cont_and_C0 _ (by omega), cont_and_C0 _ (by omega)⟩
  · refine ⟨_, _, _, _, encode_eq_four cp ha hb, lead4_and_F8 _ (by omega),
      cont_and_C0 _ (by omega), cont_and_C0 _ (by omega), cont_and_C0 _ (by omega)⟩

theorem encode_codepoint_boundary_table_witness :
    ∃ b0 b1 b2 b3, encode_codepoint 0x10FFFF = [b0, b1, b2, b3] ∧
      b0 &&& 0xF8 = 0xF0 ∧ b1 &&& 0xC0 = 0x80 ∧ b2 &&& 0xC0 = 0x80 ∧ b3 &&& 0xC0 = 0x80 :=
  (encode_codepoint_boundary_table 0x10FFFF (by norm_num)).2.2.2.2.2.1
    (by norm_num) (by norm_num)

/-- C5 as stated is too strong in one direction: on input `"\\\\"` (two
backslash bytes) the last character of the input is a backslash with
nothing following it, yet the function succeeds with `"\\"`, because that
final backslash is consumed by the preceding escape. -/
theorem resolve_escape_trailing_backslash_counterexample :
    ([92, 92] : List Nat).getLast? = some 92 ∧
    resolve_escape_sequence [92, 92] = Except.ok [92] :=
  ⟨by decide, resolve_escaped_backslash_eval⟩

/-- C5 (amended): `resolve_escape_sequence` fails with `MalformedEscape`
only when the scan meets a backslash at the last position that no earlier
escape consumed; hence every failure implies the input ends in a backslash
byte, and every input not ending in a backslash succeeds — including the
empty string (yielding the empty string) and zero-digit hex/octal escapes
(which encode codepoint 0 as a NUL byte).  An input that ends in a
backslash may still succeed when that backslash is itself escaped. -/
theorem resolve_escape_error_characterization :
    resolve_escape_sequence [] = Except.ok [] ∧
    resolve_escape_sequence [92] = Except.error EscapeError.malformedEscape ∧
    (∀ s : List Nat, resolve_escape_sequence s = Except.error EscapeError.malformedEscape →
      s.getLast? = some 92) ∧
    (∀ s : List Nat, s.getLast? ≠ some 92 → (resolve_escape_sequence s).isOk = true) ∧
    resolve_escape_sequence [92, 120] = Except.ok [0] ∧
    resolve_escape_sequence [92, 112] = Except.ok [0, 112] :=
  ⟨resolve_nil_eval, resolve_lone_backslash_eval, resolve_error_getLast,
    resolve_isOk, resolve_zero_digit_hex_eval, resolve_zero_digit_octal_eval⟩

theorem resolve_escape_error_characterization_witness :
    (resolve_escape_sequence [97]).isOk = true :=
  resolve_escape_error_characterization.2.2.2.1 [97] (by decide)

/-- C6: after a backslash, any byte other than the fixed single-character
escapes and `x`/`u` starts an octal escape; all following decimal digits
(0-9, including 8 and 9) are consumed greedily and combined with radix 8,
and the resulting codepoint is encoded and appended.  In particular
`"\\101"` resolves to `"A"` (octal 101 = 65), `"\\8"` to byte 8 and
`"\\99"` to byte 81 = 9*8+9. -/
theorem octal_escape_greedy_decimal_digits_radix8 :
    (∀ (ds rest : List Nat), ds ≠ [] →
      (∀ c ∈ ds, 48 ≤ c ∧ c ≤ 57) →
      (∀ c, rest.head? = some c → ¬(48 ≤ c ∧ c ≤ 57)) →
      resolve_escape_sequence (92 :: ds ++ rest) =
        Except.map (fun t => encode_codepoint (octal_value ds) ++ t)
          (resolve_escape_sequence rest)) ∧
    resolve_escape_sequence [92, 49, 48, 49] = Except.ok [65] ∧
    resolve_escape_sequence [92, 56] = Except.ok [8] ∧
    resolve_escape_sequence [92, 57, 57] = Except.ok [81] :=
  ⟨resolve_octal_escape, resolve_octal_101_eval, resolve_octal_8_eval, resolve_octal_99_eval⟩

theorem octal_escape_greedy_witness :
    resolve_escape_sequence (92 :: [49, 48, 49] ++ []) =
      Except.map (fun t => encode_codepoint (octal_value [49, 48, 49]) ++ t)
        (resolve_escape_sequence []) :=
  octal_escape_greedy_decimal_digits_radix8.1 [49, 48, 49] [] (by simp) (by decide)
    (by intro c hc; simp at hc)

/-- C7: `codepoint_length` returns 1 on an ASCII lead byte, and 2, 3 or 4
on the two-, three- and four-byte lead patterns when enough bytes are
available, and 0 in every other case, including the empty buffer and
truncated sequences.  Byte-mask
conditions are written as the equivalent value ranges for bytes. -/
theorem codepoint_length_classification :
    codepoint_length [] = 0 ∧
    (∀ (b : Nat) (r : List Nat), b < 256 →
      codepoint_length (b :: r) =
        (if b < 0x80 then 1
         else if 0xC0 ≤ b ∧ b < 0xE0 ∧ 2 ≤ (b :: r).length then 2
         else if 0xE0 ≤ b ∧ b < 0xF0 ∧ 3 ≤ (b :: r).length then 3
         else if 0xF0 ≤ b ∧ b < 0xF8 ∧ 4 ≤ (b :: r).length then 4
         else 0)) := by
  refine ⟨rfl, fun b r hb => ?_⟩
  have e1 := byte_mask_1 b hb
  have e2 := byte_mask_2 b hb
  have e3 := byte_mask_3 b hb
  have e4 := byte_mask_4 b hb
  simp only [codepoint_length, e1, e2, e3, e4, and_assoc]

theorem codepoint_length_classification_witness :
    codepoint_length (0xE4 :: [0xB8, 0xAD]) =
      (if (0xE4 : Nat) < 0x80 then 1
       else if 0xC0 ≤ (0xE4 : Nat) ∧ (0xE4 : Nat) < 0xE0 ∧
         2 ≤ ((0xE4 : Nat) :: [(0xB8 : Nat), 0xAD]).length then 2
       else if 0xE0 ≤ (0xE4 : Nat) ∧ (0xE4 : Nat) < 0xF0 ∧
         3 ≤ ((0xE4 : Nat) :: [(0xB8 : Nat), 0xAD]).length then 3
       else if 0xF0 ≤ (0xE4 : Nat) ∧ (0xE4 : Nat) < 0xF8 ∧
         4 ≤ ((0xE4 : Nat) :: [(0xB8 : Nat), 0xAD]).length then 4
       else 0) :=
  codepoint_length_classification.2 0xE4 [0xB8, 0xAD] (by norm_num)

/-- C8: trie construction is deterministic and order-independent — two
input vectors with the same element set (any permutation, with or without
repetitions) yield tries with identical match results on every query. -/
theorem trie_build_order_independent (P Q : List (List Char)) (s : List Char)
    (h : ∀ p, p ∈ P ↔ p ∈ Q) :
    Trie_match (Trie_build P) s = Trie_match (Trie_build Q) s := by
  rw [Trie_match_eq_bestFrom, Trie_match_eq_bestFrom]
  apply Nat.le_antisymm
  · rcases bestFrom_cases P s 1 with h0 | ⟨p, hp, hpre, hlen, hval⟩
    · omega
    · rw [← hval]
      exact bestFrom_le Q s 1 p ((h p).mp hp) hpre hlen
  · rcases bestFrom_cases Q s 1 with h0 | ⟨p, hp, hpre, hlen, hval⟩
    · omega
    · rw [← hval]
      exact bestFrom_le P s 1 p ((h p).mpr hp) hpre hlen

theorem trie_build_order_independent_witness :
    Trie_match (Trie_build [['a'], ['a', 'b']]) ['a', 'b', 'c'] =
      Trie_match (Trie_build [['a', 'b'], ['a'], ['a']]) ['a', 'b', 'c'] :=
  trie_build_order_independent [['a'], ['a', 'b']] [['a', 'b'], ['a'], ['a']]
    ['a', 'b', 'c'] (by intro p; simp [List.mem_cons]; tauto)

/-- C9: `decode_codepoint` does not validate the scalar range of the
decoded value: `ED A0 80` decodes successfully to the surrogate 0xD800 and
`F5 80 80 80` to 0x140000 ≥ 0x110000 — values outside the documented
codepoint domain, on byte sequences `encode_codepoint` can never
produce. -/
theorem decode_codepoint_no_scalar_validation :
    decode_codepoint [0xED, 0xA0, 0x80] = some (0xD800, 3) ∧
    (0xD800 ≤ 0xD800 ∧ 0xD800 < 0xE000) ∧
    decode_codepoint [0xF5, 0x80, 0x80, 0x80] = some (0x140000, 4) ∧
    0x110000 ≤ 0x140000 ∧
    (∀ v : Nat, encode_codepoint v ≠ [0xED, 0xA0, 0x80]) ∧
    (∀ v : Nat, encode_codepoint v ≠ [0xF5, 0x80, 0x80, 0x80]) := by
  refine ⟨by decide, by norm_num, by decide, by norm_num, fun v h => ?_, fun v h => ?_⟩
  · have hval := encode_ne_nil_valid v (by rw [h]; simp)
    have hrt := decode_encode v (by omega) (by omega)
    rw [h, (by decide : decode_codepoint [0xED, 0xA0, 0x80] = some (0xD800, 3))] at hrt
    have hv : (0xD800 : Nat) = v := by
      have := congrArg (fun o => (Option.getD o (0, 0)).1) hrt
      simpa using this
    omega
  · have hval := encode_ne_nil_valid v (by rw [h]; simp)
    have hrt := decode_encode v (by omega) (by omega)
    rw [h, (by decide : decode_codepoint [0xF5, 0x80, 0x80, 0x80] = some (0x140000, 4))] at hrt
    have hv : (0x140000 : Nat) = v := by
      have := congrArg (fun o => (Option.getD o (0, 0)).1) hrt
      simpa using this
    omega

theorem decode_codepoint_no_scalar_validation_witness :
    encode_codepoint 65 ≠ [0xED, 0xA0, 0x80] :=
  decode_codepoint_no_scalar_validation.2.2.2.2.1 65

/-- C10: every `\x`/`\u` escape whose consumed hex digits denote a value in
the surrogate range `[0xD800, 0xE000)` or in `[0x110000, 2^31)` still
succeeds: `encode_codepoint` returns the empty string, so zero bytes are
appended for the escape and the rest of the input is resolved normally. -/
theorem hex_escape_invalid_scalar_dropped (u : Nat) (hu : u = 120 ∨ u = 117)
    (ds rest : List Nat)
    (hd : ∀ c ∈ ds, (is_hex c).isSome = true)
    (hr : ∀ c, rest.head? = some c → is_hex c = none)
    (hv : (0xD800 ≤ hex_value ds ∧ hex_value ds < 0xE000) ∨
      (0x110000 ≤ hex_value ds ∧ hex_value ds < 2 ^ 31)) :
    resolve_escape_sequence (92 :: u :: ds ++ rest) = resolve_escape_sequence rest ∧
    encode_codepoint (hex_value ds) = [] := by
  have henc : encode_codepoint (hex_value ds) = [] := by
    rcases hv with ⟨h1, h2⟩ | ⟨h1, _⟩
    · exact encode_eq_nil_surrogate _ h1 h2
    · exact encode_eq_nil_overflow _ h1
  refine ⟨?_, henc⟩
  rw [resolve_hex_escape u hu ds rest hd hr, henc]
  cases resolve_escape_sequence rest <;> simp [Except.map]

theorem hex_escape_invalid_scalar_dropped_witness :
    resolve_escape_sequence (92 :: 120 :: [68, 56, 48, 48] ++ [103]) =
      resolve_escape_sequence [103] ∧
    encode_codepoint (hex_value [68, 56, 48, 48]) = [] :=
  hex_escape_invalid_scalar_dropped 120 (Or.inl rfl) [68, 56, 48, 48] [103]
    (by decide)
    (by intro c hc; simp at hc; subst hc; decide)
    (by left; constructor <;> decide)

end peg
